import Mathlib

/-! Phone number reconciliation (`cmd/app/main.go`, `db/phone.go`).

A shallow embedding of the normalize-and-deduplicate pass of the program and of
the store operations it calls.

* A Go `string` read from the `phone_numbers` table is modelled as a Lean `String`
  (a sequence of Unicode characters); the regular expression of `normalize` works
  character by character.
* The table `phone_numbers` is the list of its rows, in scan order.  A `DB` value
  pairs the table with the log of the store calls issued so far.
* A store call can fail.  Which calls fail is given by a fault schedule
  `flt : Nat → Option StoreError`, asked at the number of calls issued before the
  current one.  A failing call is logged and leaves the table as it was.
* `must(err)` panics on a non-nil error: the embedded functions then stop and
  return the store reached together with the error.
-/

namespace Gophercises

/-! ## Data model (`db/phone.go`) -/

/-- Phone is the record type `Phone` of `db/phone.go`: an id and a number. -/
structure Phone where
  ID : Int
  Number : String
deriving DecidableEq

/-- An error value returned by the store. -/
structure StoreError where
  msg : String
deriving DecidableEq

/-- The store calls: one constructor per SQL statement of the CRUD functions. -/
inductive Call where
  | all
  | find (number : String)
  | update (id : Int) (number : String)
  | delete (id : Int)
deriving DecidableEq

/-- The database handle: the rows of `phone_numbers` and the calls issued so far. -/
structure DB where
  rows : List Phone
  log : List Call
deriving DecidableEq

/-- A fault schedule: the error, if any, of the call issued after `n` earlier calls. -/
abbrev Faults := Nat → Option StoreError

/-- The schedule under which no store call fails. -/
def noFaults : Faults := fun _ => none

/-! ## `normalize` (`cmd/app/main.go`, lines 64-67) -/

/-- The class `\D` of the pattern of `normalize`: any character other than `0`..`9`. -/
def nonDigit (c : Char) : Bool := !(decide ('0' ≤ c) && decide (c ≤ '9'))

/-- Replacement of every match of a one-character class by `repl`, on character lists. -/
def replaceAllChars (cls : Char → Bool) (repl : List Char) : List Char → List Char
  | [] => []
  | c :: cs => if cls c then repl ++ replaceAllChars cls repl cs else c :: replaceAllChars cls repl cs

/-- ReplaceAllString of Go's `regexp`, for a pattern that is a one-character class:
every character of the class is a match and is replaced by `repl`, the rest is copied. -/
def ReplaceAllString (cls : Char → Bool) (src repl : String) : String :=
  String.mk (replaceAllChars cls repl.data src.data)

/-- The function `normalize`: `regexp.MustCompile("\\D").ReplaceAllString(phone, "")`. -/
def normalize (phone : String) : String :=
  ReplaceAllString nonDigit phone ""

/-! ## Store operations (`db/phone.go`) -/

/-- The row loop of `AllPhones`: every row is scanned into a fresh `p`, and the loop
body ends there; `ret` is handed on as it is. -/
def scanRows : List Phone → List Phone → List Phone
  | [], ret => ret
  | row :: rows, ret =>
    let _p : Phone := { ID := row.ID, Number := row.Number }
    scanRows rows ret

/-- AllPhones: `SELECT id, value FROM phone_numbers`, then the row loop starting
from the nil slice `ret`. -/
def AllPhones (flt : Faults) (db : DB) : DB × Except StoreError (List Phone) :=
  let db1 : DB := { db with log := db.log ++ [Call.all] }
  match flt db.log.length with
  | some e => (db1, Except.error e)
  | none => (db1, Except.ok (scanRows db.rows []))

/-- FindPhone: `SELECT * FROM phone_numbers WHERE value=$1`, first row if any;
`sql.ErrNoRows` is turned into the nil record without error. -/
def FindPhone (flt : Faults) (db : DB) (number : String) : DB × Except StoreError (Option Phone) :=
  let db1 : DB := { db with log := db.log ++ [Call.find number] }
  match flt db.log.length with
  | some e => (db1, Except.error e)
  | none => (db1, Except.ok (db.rows.find? (fun r => r.Number == number)))

/-- UpdatePhone: `UPDATE phone_numbers SET value=$2 WHERE id=$1`. -/
def UpdatePhone (flt : Faults) (db : DB) (p : Phone) : DB × Option StoreError :=
  match flt db.log.length with
  | some e => ({ db with log := db.log ++ [Call.update p.ID p.Number] }, some e)
  | none =>
    ({ rows := db.rows.map (fun r => if r.ID = p.ID then { r with Number := p.Number } else r),
       log := db.log ++ [Call.update p.ID p.Number] }, none)

/-- DeletePhone: `DELETE FROM phone_numbers WHERE id=$1`. -/
def DeletePhone (flt : Faults) (db : DB) (id : Int) : DB × Option StoreError :=
  match flt db.log.length with
  | some e => ({ db with log := db.log ++ [Call.delete id] }, some e)
  | none =>
    ({ rows := db.rows.filter (fun r => decide (r.ID ≠ id)),
       log := db.log ++ [Call.delete id] }, none)

/-! ## The reconciliation loop (`cmd/app/main.go`, lines 36-54) -/

/-- The body of the `for _, p := range phones` loop of `main` (lines 39-53). -/
def loopBody (flt : Faults) (p : Phone) (db : DB) : DB × Option StoreError :=
  let number := normalize p.Number
  if number ≠ p.Number then
    match FindPhone flt db number with
    | (db1, Except.error e) => (db1, some e)
    | (db1, Except.ok existing) =>
      if existing ≠ none then
        DeletePhone flt db1 p.ID
      else
        UpdatePhone flt db1 { p with Number := number }
  else
    (db, none)

/-- The loop `for _, p := range phones` of `main` (lines 38-54); a non-nil error
given to `must` ends the run. -/
def reconcile (flt : Faults) : List Phone → DB → DB × Option StoreError
  | [], db => (db, none)
  | p :: ps, db =>
    match loopBody flt p db with
    | (db1, some e) => (db1, some e)
    | (db1, none) => reconcile flt ps db1

/-- Lines 36-54 of `main`: `phones, err := db.AllPhones(); must(err)`, then the loop. -/
def main (flt : Faults) (db : DB) : DB × Option StoreError :=
  match AllPhones flt db with
  | (db1, Except.error e) => (db1, some e)
  | (db1, Except.ok phones) => reconcile flt phones db1

/-! ## Vocabulary of the specification -/

/-- A value consists only of the digits `0`..`9`. -/
def digitsOnly (s : String) : Bool := s.data.all (fun c => !nonDigit c)

/-- The number of write calls (`UpdatePhone`, `DeletePhone`) in a call log. -/
def writes (log : List Call) : Nat :=
  log.countP (fun c => match c with
    | Call.update _ _ => true
    | Call.delete _ => true
    | _ => false)

/-- The spec's digit test: a character in the range `0`..`9`. -/
def isAsciiDigit (c : Char) : Bool := decide ('0' ≤ c) && decide (c ≤ '9')

/-! ## Tables of the specification's scenarios and of `Seed` -/

/-- The slice `data` of `Seed` (`db/phone.go`, lines 70-79). -/
def seedData : List String :=
  ["1234567890", "123 456 7891", "(123) 456 7892", "(123) 456-7893", "123-456-7894",
   "123-456-7890", "1234567892", "(123)456-7892"]

/-- One successful `insertPhone` (`INSERT INTO phone_numbers(value) VALUES($1) RETURNING id`)
when the sequence behind `id SERIAL` yields `next`: the row is added and its id returned. -/
def insertPhone (rows : List Phone) (next : Int) (phone : String) : List Phone × Int :=
  (rows ++ [⟨next, phone⟩], next)

/-- The loop of `Seed` without store error, the sequence standing at `next`. -/
def seedLoop : List String → List Phone → Int → List Phone
  | [], rows, _ => rows
  | number :: rest, rows, next => seedLoop rest (insertPhone rows next number).1 (next + 1)

/-- The store after `Reset`, `Migrate` and an error-free `Seed`: the eight numbers of
`data` in insertion order with the ids `1`..`8`, and no call of the pass issued yet. -/
def seeded : DB :=
  { rows := seedLoop seedData [] 1, log := [] }

/-- The scenario table `["1234567890", "123-456-7890"]` with ids 1 and 2. -/
def canonicalFirst : DB :=
  { rows := [⟨1, "1234567890"⟩, ⟨2, "123-456-7890"⟩], log := [] }

/-- The scenario table `["(123) 456-7892", "(123)456-7892"]` with ids 1 and 2. -/
def twoFormats : DB :=
  { rows := [⟨1, "(123) 456-7892"⟩, ⟨2, "(123)456-7892"⟩], log := [] }

/-- The scenario table `["1234567891"]` with id 1. -/
def singleCanonical : DB :=
  { rows := [⟨1, "1234567891"⟩], log := [] }

/-- A table with two records that hold the same digits-only value. -/
def sameCanonical : DB :=
  { rows := [⟨1, "1234567890"⟩, ⟨2, "1234567890"⟩], log := [] }

/-- The schedule under which every store call fails. -/
def allFail : Faults := fun _ => some ⟨"connection refused"⟩

/-- The schedule under which exactly the call issued after `k` earlier calls fails. -/
def failAt (k : Nat) : Faults := fun n => if n = k then some ⟨"connection lost"⟩ else none

/-! ## Fault-free reading of the loop, used in the proofs -/

/-- The table after one error-free run of the loop body on `p`. -/
def stepRows (p : Phone) (rows : List Phone) : List Phone :=
  if normalize p.Number = p.Number then rows
  else if rows.any (fun r => r.Number == normalize p.Number) then
    rows.filter (fun r => decide (r.ID ≠ p.ID))
  else rows.map (fun r => if r.ID = p.ID then { r with Number := normalize p.Number } else r)

/-- The calls issued by one error-free run of the loop body on `p`. -/
def stepCalls (p : Phone) (rows : List Phone) : List Call :=
  if normalize p.Number = p.Number then []
  else if rows.any (fun r => r.Number == normalize p.Number) then
    [Call.find (normalize p.Number), Call.delete p.ID]
  else [Call.find (normalize p.Number), Call.update p.ID (normalize p.Number)]

/-- The table after an error-free run of the loop over `phones`. -/
def passRows : List Phone → List Phone → List Phone
  | [], rows => rows
  | p :: ps, rows => passRows ps (stepRows p rows)

/-- The calls issued, record by record, by an error-free run of the loop. -/
def passCalls : List Phone → List Phone → List (List Call)
  | [], _ => []
  | p :: ps, rows => stepCalls p rows :: passCalls ps (stepRows p rows)

/-- The processed part of the table `done ++ todo ++ tail` once the records of
`todo` have been visited from left to right. -/
def sweep : List Phone → List Phone → List Phone → List Phone
  | done, [], _ => done
  | done, p :: rest, tail =>
    if normalize p.Number = p.Number then sweep (done ++ [p]) rest tail
    else if (done ++ p :: (rest ++ tail)).any (fun r => r.Number == normalize p.Number) then
      sweep done rest tail
    else sweep (done ++ [{ p with Number := normalize p.Number }]) rest tail

/-! ## `normalize` -/

theorem replaceAllChars_nil (cls : Char → Bool) (l : List Char) :
    replaceAllChars cls [] l = l.filter (fun c => !cls c) := by
  induction l with
  | nil => rfl
  | cons c cs ih =>
    by_cases h : cls c = true
    · simp [replaceAllChars, h, ih]
    · simp [replaceAllChars, h, ih]

theorem normalize_data (s : String) :
    (normalize s).data = s.data.filter (fun c => !nonDigit c) := by
  show replaceAllChars nonDigit [] s.data = _
  exact replaceAllChars_nil nonDigit s.data

theorem not_nonDigit (c : Char) : (!nonDigit c) = isAsciiDigit c := by
  simp [nonDigit, isAsciiDigit]

theorem normalize_idem (s : String) : normalize (normalize s) = normalize s := by
  apply String.ext
  rw [normalize_data, normalize_data, List.filter_filter]
  simp

theorem normalize_eq_self_iff (s : String) : normalize s = s ↔ digitsOnly s = true := by
  constructor
  · intro h
    have h1 : (normalize s).data = s.data := by rw [h]
    rw [normalize_data, List.filter_eq_self] at h1
    simpa [digitsOnly, List.all_eq_true] using h1
  · intro h
    apply String.ext
    rw [normalize_data, List.filter_eq_self]
    simpa [digitsOnly, List.all_eq_true] using h

/-- C1: `normalize s` is `s` filtered by the digit test: it holds digits only, it is
a subsequence of `s` (the relative order is kept), and every digit occurs in it as
often as in `s`. -/
theorem normalize_filter_digits (s : String) :
    normalize s = String.mk (s.data.filter isAsciiDigit)
    ∧ (∀ c ∈ (normalize s).data, '0' ≤ c ∧ c ≤ '9')
    ∧ (normalize s).data.Sublist s.data
    ∧ (∀ c : Char, '0' ≤ c → c ≤ '9' → (normalize s).data.count c = s.data.count c) := by
  have hd : (normalize s).data = s.data.filter isAsciiDigit := by
    rw [normalize_data]
    congr 1
    funext c
    exact not_nonDigit c
  refine ⟨String.ext hd, ?_, ?_, ?_⟩
  · intro c hc
    rw [hd, List.mem_filter] at hc
    simpa [isAsciiDigit] using hc.2
  · rw [hd]
    exact List.filter_sublist s.data
  · intro c h0 h9
    rw [hd]
    apply List.count_filter
    simp [isAsciiDigit, h0, h9]

/-! ## The loop body and the loop without store error -/

theorem find_ne_none_iff (rows : List Phone) (n : String) :
    rows.find? (fun r => r.Number == n) ≠ none ↔ rows.any (fun r => r.Number == n) = true := by
  rw [Ne, List.find?_eq_none, List.any_eq_true]
  push_neg
  rfl

theorem loopBody_of_ok (flt : Faults) (p : Phone) (db : DB)
    (h : (loopBody flt p db).2 = none) :
    loopBody flt p db = (⟨stepRows p db.rows, db.log ++ stepCalls p db.rows⟩, none) := by
  unfold loopBody at h ⊢
  unfold stepRows stepCalls
  by_cases hc : normalize p.Number = p.Number
  · simp [hc]
  · simp only [ne_eq, hc, not_false_eq_true, if_true, if_false] at h ⊢
    unfold FindPhone at h ⊢
    cases hf : flt db.log.length with
    | some e => simp [hf] at h
    | none =>
      simp only [hf] at h ⊢
      by_cases ha : db.rows.any (fun r => r.Number == normalize p.Number) = true
      · have hn := (find_ne_none_iff db.rows (normalize p.Number)).2 ha
        simp only [ne_eq, hn, not_false_eq_true, if_true, ha] at h ⊢
        unfold DeletePhone at h ⊢
        cases hg : flt (db.log.length + 1) with
        | some e => simp [hg] at h
        | none => simp [hg]
      · have hn : ¬ (db.rows.find? (fun r => r.Number == normalize p.Number) ≠ none) :=
          fun hx => ha ((find_ne_none_iff db.rows (normalize p.Number)).1 hx)
        simp only [hn, if_false, ha] at h ⊢
        unfold UpdatePhone at h ⊢
        cases hg : flt (db.log.length + 1) with
        | some e => simp [hg] at h
        | none => simp [hg]

theorem reconcile_of_ok (flt : Faults) (ps : List Phone) (db : DB)
    (h : (reconcile flt ps db).2 = none) :
    reconcile flt ps db
      = (⟨passRows ps db.rows, db.log ++ (passCalls ps db.rows).flatten⟩, none) := by
  induction ps generalizing db with
  | nil => simp [reconcile, passRows, passCalls]
  | cons p ps ih =>
    unfold reconcile at h ⊢
    cases hb : loopBody flt p db with
    | mk db1 r =>
      cases r with
      | some e => simp [hb] at h
      | none =>
        have hb2 := loopBody_of_ok flt p db (by rw [hb])
        rw [hb] at hb2
        simp only [hb] at h ⊢
        rw [ih db1 h]
        have hd : db1 = ⟨stepRows p db.rows, db.log ++ stepCalls p db.rows⟩ := by
          injection hb2
        subst hd
        simp [passRows, passCalls, List.append_assoc]

theorem reconcile_noFaults_ok (ps : List Phone) (db : DB) :
    (reconcile noFaults ps db).2 = none := by
  induction ps generalizing db with
  | nil => rfl
  | cons p ps ih =>
    unfold reconcile
    cases hb : loopBody noFaults p db with
    | mk db1 r =>
      cases r with
      | none => simpa using ih db1
      | some e =>
        exfalso
        unfold loopBody FindPhone DeletePhone UpdatePhone at hb
        simp only [noFaults] at hb
        split_ifs at hb <;> simp at hb

/-! ## The table during a pass over its own rows -/

theorem ids_ne_of_nodup (done rest : List Phone) (p : Phone)
    (hnd : ((done ++ p :: rest).map Phone.ID).Nodup) :
    (∀ r ∈ done, r.ID ≠ p.ID) ∧ (∀ r ∈ rest, r.ID ≠ p.ID) := by
  rw [List.map_append, List.map_cons] at hnd
  have h1 := List.nodup_middle.1 hnd
  rw [List.nodup_cons, List.mem_append, not_or] at h1
  constructor
  · intro r hr he
    exact h1.1.1 (he ▸ List.mem_map_of_mem Phone.ID hr)
  · intro r hr he
    exact h1.1.2 (he ▸ List.mem_map_of_mem Phone.ID hr)

theorem filter_ids_mid (done rest : List Phone) (p : Phone)
    (hnd : ((done ++ p :: rest).map Phone.ID).Nodup) :
    (done ++ p :: rest).filter (fun r => decide (r.ID ≠ p.ID)) = done ++ rest := by
  obtain ⟨h1, h2⟩ := ids_ne_of_nodup done rest p hnd
  rw [List.filter_append, List.filter_cons]
  have e1 : done.filter (fun r => decide (r.ID ≠ p.ID)) = done :=
    List.filter_eq_self.2 (fun r hr => by simpa using h1 r hr)
  have e2 : rest.filter (fun r => decide (r.ID ≠ p.ID)) = rest :=
    List.filter_eq_self.2 (fun r hr => by simpa using h2 r hr)
  rw [e1, e2]
  simp

theorem map_ids_mid (done rest : List Phone) (p : Phone) (n : String)
    (hnd : ((done ++ p :: rest).map Phone.ID).Nodup) :
    (done ++ p :: rest).map (fun r => if r.ID = p.ID then { r with Number := n } else r)
      = done ++ { p with Number := n } :: rest := by
  obtain ⟨h1, h2⟩ := ids_ne_of_nodup done rest p hnd
  have e : ∀ l : List Phone, (∀ r ∈ l, r.ID ≠ p.ID) →
      l.map (fun r => if r.ID = p.ID then { r with Number := n } else r) = l := by
    intro l hl
    induction l with
    | nil => rfl
    | cons a l ih =>
      rw [List.map_cons, ih (fun r hr => hl r (List.mem_cons_of_mem a hr))]
      simp [hl a (List.mem_cons_self a l)]
  rw [List.map_append, List.map_cons, e done h1, e rest h2]
  simp

theorem passRows_eq_sweep (done todo tail : List Phone)
    (hnd : ((done ++ (todo ++ tail)).map Phone.ID).Nodup) :
    passRows todo (done ++ (todo ++ tail)) = sweep done todo tail ++ tail := by
  induction todo generalizing done with
  | nil => simp [passRows, sweep]
  | cons p rest ih =>
    rw [List.cons_append] at hnd ⊢
    unfold passRows sweep stepRows
    by_cases hc : normalize p.Number = p.Number
    · simp only [hc, if_true]
      have := ih (done ++ [p]) (by simpa [List.append_assoc] using hnd)
      simpa [List.append_assoc] using this
    · simp only [hc, if_false]
      by_cases ha : (done ++ p :: (rest ++ tail)).any (fun r => r.Number == normalize p.Number) = true
      · simp only [ha, if_true]
        rw [filter_ids_mid done (rest ++ tail) p hnd]
        apply ih done
        rw [List.map_append, List.map_cons] at hnd
        have := (List.nodup_middle.1 hnd).of_cons
        simpa [List.map_append] using this
      · simp only [ha, if_false]
        rw [map_ids_mid done (rest ++ tail) p (normalize p.Number) hnd]
        have := ih (done ++ [{ p with Number := normalize p.Number }])
          (by simpa [List.append_assoc] using hnd)
        simpa [List.append_assoc] using this

/-! ## Properties of the processed part -/

theorem not_any_number (l : List Phone) (n : String)
    (h : ¬ l.any (fun r => r.Number == n) = true) : ∀ r ∈ l, r.Number ≠ n := by
  intro r hr he
  apply h
  rw [List.any_eq_true]
  exact ⟨r, hr, by simpa using he⟩

theorem any_number (l : List Phone) (n : String)
    (h : l.any (fun r => r.Number == n) = true) : ∃ r ∈ l, r.Number = n := by
  rw [List.any_eq_true] at h
  obtain ⟨r, hr, he⟩ := h
  exact ⟨r, hr, by simpa using he⟩

theorem mem_sweep_of_mem_done (done todo tail : List Phone) (r : Phone) (hr : r ∈ done) :
    r ∈ sweep done todo tail := by
  induction todo generalizing done with
  | nil => simpa [sweep] using hr
  | cons p rest ih =>
    unfold sweep
    split_ifs
    · exact ih _ (List.mem_append_left _ hr)
    · exact ih _ hr
    · exact ih _ (List.mem_append_left _ hr)

theorem mem_sweep_of_canonical (done todo tail : List Phone) (r : Phone) (hr : r ∈ todo)
    (hc : normalize r.Number = r.Number) : r ∈ sweep done todo tail := by
  induction todo generalizing done with
  | nil => simp at hr
  | cons p rest ih =>
    unfold sweep
    rcases List.mem_cons.1 hr with rfl | hr
    · rw [if_pos hc]
      exact mem_sweep_of_mem_done _ _ _ _ (by simp)
    · split_ifs
      · exact ih _ hr
      · exact ih _ hr
      · exact ih _ hr

theorem sweep_ids_sublist (done todo tail : List Phone) :
    ((sweep done todo tail).map Phone.ID).Sublist ((done ++ todo).map Phone.ID) := by
  induction todo generalizing done with
  | nil => simp [sweep]
  | cons p rest ih =>
    unfold sweep
    split_ifs
    · simpa [List.append_assoc] using ih (done ++ [p])
    · refine (ih done).trans ?_
      apply List.Sublist.map
      exact List.Sublist.append_left (List.sublist_cons_self p rest) done
    · have h1 := ih (done ++ [{ p with Number := normalize p.Number }])
      rw [List.append_assoc, List.singleton_append, List.map_append, List.map_cons] at h1
      rw [List.map_append, List.map_cons]
      exact h1

theorem sweep_canonical (done todo tail : List Phone)
    (h : ∀ r ∈ done, normalize r.Number = r.Number) :
    ∀ r ∈ sweep done todo tail, normalize r.Number = r.Number := by
  induction todo generalizing done with
  | nil => simpa [sweep] using h
  | cons p rest ih =>
    unfold sweep
    split_ifs with hc ha
    · apply ih
      intro r hr
      rcases List.mem_append.1 hr with hr | hr
      · exact h r hr
      · rw [List.mem_singleton.1 hr]; exact hc
    · exact ih done h
    · apply ih
      intro r hr
      rcases List.mem_append.1 hr with hr | hr
      · exact h r hr
      · rw [List.mem_singleton.1 hr]; exact normalize_idem p.Number

theorem sweep_pairwise (orig done todo : List Phone)
    (h : (done ++ todo).Pairwise (fun a b => a.Number = b.Number → a ∈ orig ∧ b ∈ orig)) :
    (sweep done todo []).Pairwise (fun a b => a.Number = b.Number → a ∈ orig ∧ b ∈ orig) := by
  induction todo generalizing done with
  | nil => simpa [sweep] using h
  | cons p rest ih =>
    unfold sweep
    rw [List.append_nil]
    split_ifs with hc ha
    · exact ih _ (by simpa [List.append_assoc] using h)
    · apply ih
      exact h.sublist (List.Sublist.append_left (List.sublist_cons_self p rest) done)
    · apply ih
      have hno := not_any_number _ _ ha
      rw [List.append_assoc, List.singleton_append]
      rw [List.pairwise_append, List.pairwise_cons] at h ⊢
      obtain ⟨hd, ⟨_, hr⟩, hdr⟩ := h
      refine ⟨hd, ⟨?_, hr⟩, ?_⟩
      · intro b hb hEq
        exact absurd hEq.symm (hno b (List.mem_append_right _ (List.mem_cons_of_mem _ hb)))
      · intro a ha2 b hb
        rcases List.mem_cons.1 hb with rfl | hb2
        · intro hEq
          exact absurd hEq (hno a (List.mem_append_left _ ha2))
        · exact hdr a ha2 b (List.mem_cons_of_mem _ hb2)

theorem sweep_values (done todo : List Phone) (s : String) :
    s ∈ (sweep done todo []).map Phone.Number
      ↔ s ∈ done.map Phone.Number ∨ s ∈ todo.map (fun r => normalize r.Number) := by
  induction todo generalizing done with
  | nil => simp [sweep]
  | cons p rest ih =>
    unfold sweep
    rw [List.append_nil]
    split_ifs with hc ha
    · rw [ih]
      simp only [List.map_append, List.map_cons, List.map_nil, List.mem_append, List.mem_cons,
        List.mem_singleton, List.not_mem_nil, or_false, hc]
      tauto
    · rw [ih]
      simp only [List.map_cons, List.mem_cons]
      constructor
      · tauto
      · rintro (h | rfl | h)
        · exact Or.inl h
        · obtain ⟨q, hq, hqn⟩ := any_number _ _ ha
          rcases List.mem_append.1 hq with hq | hq
          · exact Or.inl (List.mem_map.2 ⟨q, hq, hqn⟩)
          · rcases List.mem_cons.1 hq with rfl | hq
            · exact absurd hqn.symm hc
            · refine Or.inr (List.mem_map.2 ⟨q, hq, ?_⟩)
              show normalize q.Number = normalize p.Number
              rw [hqn, normalize_idem]
        · exact Or.inr h
    · rw [ih]
      simp only [List.map_append, List.map_cons, List.map_nil, List.mem_append, List.mem_cons,
        List.mem_singleton, List.not_mem_nil, or_false]
      tauto

theorem sweep_deleted (done todo : List Phone)
    (hs : (todo.map Phone.ID).Pairwise (· < ·)) (p : Phone) (hp : p ∈ todo)
    (hdel : p.ID ∉ (sweep done todo []).map Phone.ID) :
    normalize p.Number ≠ p.Number ∧
      ∃ q ∈ sweep done todo [], q.Number = normalize p.Number ∧
        (q ∈ done ∨ q ∈ todo ∨ q.ID < p.ID) := by
  induction todo generalizing done with
  | nil => simp at hp
  | cons h rest ih =>
    rw [List.map_cons, List.pairwise_cons] at hs
    obtain ⟨hlt, hs2⟩ := hs
    unfold sweep at hdel ⊢
    rw [List.append_nil] at hdel ⊢
    split_ifs at hdel ⊢ with hc ha
    · rcases List.mem_cons.1 hp with rfl | hp2
      · exfalso
        apply hdel
        exact List.mem_map_of_mem _ (mem_sweep_of_mem_done _ _ _ _ (by simp))
      · obtain ⟨hne, q, hq, hqn, hw⟩ := ih (done ++ [h]) hs2 hp2 hdel
        refine ⟨hne, q, hq, hqn, ?_⟩
        rcases hw with hw | hw | hw
        · rcases List.mem_append.1 hw with hw | hw
          · exact Or.inl hw
          · exact Or.inr (Or.inl (by rw [List.mem_singleton.1 hw]; exact List.mem_cons_self _ _))
        · exact Or.inr (Or.inl (List.mem_cons_of_mem _ hw))
        · exact Or.inr (Or.inr hw)
    · rcases List.mem_cons.1 hp with rfl | hp2
      · refine ⟨hc, ?_⟩
        obtain ⟨q, hq, hqn⟩ := any_number _ _ ha
        rcases List.mem_append.1 hq with hq | hq
        · exact ⟨q, mem_sweep_of_mem_done _ _ _ _ hq, hqn, Or.inl hq⟩
        · rcases List.mem_cons.1 hq with rfl | hq
          · exact absurd hqn.symm hc
          · exact ⟨q, mem_sweep_of_canonical _ _ _ _ hq (by rw [hqn, normalize_idem]), hqn,
              Or.inr (Or.inl (List.mem_cons_of_mem _ hq))⟩
      · obtain ⟨hne, q, hq, hqn, hw⟩ := ih done hs2 hp2 hdel
        refine ⟨hne, q, hq, hqn, ?_⟩
        rcases hw with hw | hw | hw
        · exact Or.inl hw
        · exact Or.inr (Or.inl (List.mem_cons_of_mem _ hw))
        · exact Or.inr (Or.inr hw)
    · rcases List.mem_cons.1 hp with rfl | hp2
      · exfalso
        apply hdel
        have hm := mem_sweep_of_mem_done (done ++ [{ p with Number := normalize p.Number }])
          rest [] { p with Number := normalize p.Number } (by simp)
        exact List.mem_map.2 ⟨_, hm, rfl⟩
      · obtain ⟨hne, q, hq, hqn, hw⟩ :=
          ih (done ++ [{ h with Number := normalize h.Number }]) hs2 hp2 hdel
        refine ⟨hne, q, hq, hqn, ?_⟩
        rcases hw with hw | hw | hw
        · rcases List.mem_append.1 hw with hw | hw
          · exact Or.inl hw
          · refine Or.inr (Or.inr ?_)
            rw [List.mem_singleton.1 hw]
            exact hlt p.ID (List.mem_map_of_mem _ hp2)
        · exact Or.inr (Or.inl (List.mem_cons_of_mem _ hw))
        · exact Or.inr (Or.inr hw)

theorem sweep_values_nodup (done todo : List Phone)
    (h : ((done ++ todo.filter (fun r => digitsOnly r.Number)).map Phone.Number).Nodup) :
    ((sweep done todo []).map Phone.Number).Nodup := by
  induction todo generalizing done with
  | nil => simpa [sweep] using h
  | cons p rest ih =>
    unfold sweep
    rw [List.append_nil]
    split_ifs with hc ha
    · have hd : digitsOnly p.Number = true := (normalize_eq_self_iff _).1 hc
      apply ih
      have e : (p :: rest).filter (fun r => digitsOnly r.Number)
          = p :: rest.filter (fun r => digitsOnly r.Number) := List.filter_cons_of_pos hd
      rw [e] at h
      simpa [List.append_assoc] using h
    · have hd : ¬ digitsOnly p.Number = true := fun hd => hc ((normalize_eq_self_iff _).2 hd)
      apply ih
      have e : (p :: rest).filter (fun r => digitsOnly r.Number)
          = rest.filter (fun r => digitsOnly r.Number) := List.filter_cons_of_neg hd
      rw [e] at h
      exact h
    · have hd : ¬ digitsOnly p.Number = true := fun hd => hc ((normalize_eq_self_iff _).2 hd)
      have hno := not_any_number _ _ ha
      apply ih
      have e : (p :: rest).filter (fun r => digitsOnly r.Number)
          = rest.filter (fun r => digitsOnly r.Number) := List.filter_cons_of_neg hd
      rw [e] at h
      rw [List.append_assoc, List.singleton_append, List.map_append, List.map_cons,
        List.nodup_middle, List.nodup_cons, ← List.map_append]
      refine ⟨?_, h⟩
      intro hmem
      obtain ⟨q, hq, hqn⟩ := List.mem_map.1 hmem
      apply hno q _ hqn
      rcases List.mem_append.1 hq with hq | hq
      · exact List.mem_append_left _ hq
      · exact List.mem_append_right _ (List.mem_cons_of_mem _ (List.mem_of_mem_filter hq))

/-! ## The pass over the rows of the table -/

theorem reconcile_rows (flt : Faults) (db : DB) (hid : (db.rows.map Phone.ID).Nodup)
    (hok : (reconcile flt db.rows db).2 = none) :
    (reconcile flt db.rows db).1.rows = sweep [] db.rows [] := by
  rw [reconcile_of_ok flt db.rows db hok]
  have h := passRows_eq_sweep [] db.rows [] (by simpa using hid)
  simpa using h

theorem reconcile_canonical_noop (flt : Faults) (phones : List Phone) (db : DB)
    (h : ∀ p ∈ phones, normalize p.Number = p.Number) :
    reconcile flt phones db = (db, none) := by
  induction phones with
  | nil => rfl
  | cons p ps ih =>
    have hp := h p (List.mem_cons_self p ps)
    have hb : loopBody flt p db = (db, none) := by
      unfold loopBody
      simp [hp]
    unfold reconcile
    rw [hb]
    exact ih (fun q hq => h q (List.mem_cons_of_mem p hq))

theorem scanRows_ret (rows ret : List Phone) : scanRows rows ret = ret := by
  induction rows with
  | nil => rfl
  | cons r rs ih => simpa [scanRows] using ih

theorem writes_append (a b : List Call) : writes (a ++ b) = writes a + writes b := by
  unfold writes
  exact List.countP_append _ a b

theorem writes_stepCalls (p : Phone) (rows : List Phone) :
    writes (stepCalls p rows) = if digitsOnly p.Number = true then 0 else 1 := by
  unfold stepCalls
  by_cases hc : normalize p.Number = p.Number
  · have hd := (normalize_eq_self_iff _).1 hc
    simp [hc, hd, writes]
  · have hd : ¬ digitsOnly p.Number = true := fun hd => hc ((normalize_eq_self_iff _).2 hd)
    split_ifs <;> simp [writes]

theorem writes_passCalls (phones rows : List Phone) :
    writes (passCalls phones rows).flatten
      = phones.countP (fun p => !digitsOnly p.Number) := by
  induction phones generalizing rows with
  | nil => simp [passCalls, writes]
  | cons p ps ih =>
    unfold passCalls
    rw [List.flatten_cons, writes_append, ih, writes_stepCalls, List.countP_cons]
    by_cases hd : digitsOnly p.Number = true
    · simp [hd]
    · simp [hd]
      omega

theorem passCalls_outcomes (phones rows : List Phone) :
    List.Forall₂ (fun (p : Phone) (cs : List Call) =>
        (normalize p.Number = p.Number ∧ cs = [])
        ∨ (normalize p.Number ≠ p.Number
            ∧ (cs = [Call.find (normalize p.Number), Call.update p.ID (normalize p.Number)]
              ∨ cs = [Call.find (normalize p.Number), Call.delete p.ID])))
      phones (passCalls phones rows) := by
  induction phones generalizing rows with
  | nil => exact List.Forall₂.nil
  | cons p ps ih =>
    unfold passCalls
    refine List.Forall₂.cons ?_ (ih _)
    unfold stepCalls
    by_cases hc : normalize p.Number = p.Number
    · exact Or.inl ⟨hc, by rw [if_pos hc]⟩
    · refine Or.inr ⟨hc, ?_⟩
      rw [if_neg hc]
      split_ifs
      · exact Or.inr rfl
      · exact Or.inl rfl

theorem reconcile_cons (flt : Faults) (p : Phone) (ps : List Phone) (db : DB) :
    reconcile flt (p :: ps) db =
      match loopBody flt p db with
      | (db1, some e) => (db1, some e)
      | (db1, none) => reconcile flt ps db1 := rfl

theorem reconcile_append (flt : Faults) (pre post : List Phone) (db : DB) :
    reconcile flt (pre ++ post) db =
      match reconcile flt pre db with
      | (db1, some e) => (db1, some e)
      | (db1, none) => reconcile flt post db1 := by
  induction pre generalizing db with
  | nil => simp [reconcile]
  | cons p ps ih =>
    rw [List.cons_append, reconcile_cons, reconcile_cons]
    cases hb : loopBody flt p db with
    | mk db1 r =>
      cases r with
      | some e => rfl
      | none => exact ih db1

theorem loopBody_error (flt : Faults) (p : Phone) (db : DB) (e : StoreError)
    (h : (loopBody flt p db).2 = some e) :
    (loopBody flt p db).1.rows = db.rows
    ∧ ((flt db.log.length = some e
          ∧ (loopBody flt p db).1.log = db.log ++ [Call.find (normalize p.Number)])
      ∨ (flt db.log.length = none ∧ ∃ w : Call,
          (w = Call.update p.ID (normalize p.Number) ∨ w = Call.delete p.ID)
          ∧ (loopBody flt p db).1.log = db.log ++ [Call.find (normalize p.Number), w])) := by
  unfold loopBody at h ⊢
  by_cases hc : normalize p.Number = p.Number
  · simp [hc] at h
  · simp only [ne_eq, hc, not_false_eq_true, if_true] at h ⊢
    unfold FindPhone at h ⊢
    cases hf : flt db.log.length with
    | some e0 =>
      simp only [hf] at h ⊢
      simp only [Option.some.injEq] at h
      subst h
      simp
    | none =>
      simp only [hf] at h ⊢
      unfold DeletePhone UpdatePhone at h ⊢
      cases hg : flt (db.log.length + 1) with
      | none =>
        exfalso
        split_ifs at h <;> simp [hg] at h
      | some e1 =>
        split_ifs <;> simp [hg]

theorem reconcile_first_call_fails (flt : Faults) (pre : List Phone) (db db1 : DB)
    (e0 : StoreError) (hf : flt db.log.length = some e0)
    (hpre : reconcile flt pre db = (db1, none)) : db1 = db := by
  induction pre with
  | nil =>
    simp only [reconcile, Prod.mk.injEq] at hpre
    exact hpre.1.symm
  | cons p ps ih =>
    unfold reconcile at hpre
    cases hb : loopBody flt p db with
    | mk db2 r =>
      rw [hb] at hpre
      cases r with
      | some e => simp at hpre
      | none =>
        simp only at hpre
        have h2 := loopBody_of_ok flt p db (by rw [hb])
        by_cases hc : normalize p.Number = p.Number
        · have hd : db2 = db := by
            rw [hb] at h2
            simp only [stepRows, stepCalls, hc, if_true, List.append_nil, Prod.mk.injEq,
              and_true] at h2
            exact h2
          rw [hd] at hpre
          exact ih hpre
        · exfalso
          have hbad : (loopBody flt p db).2 = some e0 := by
            unfold loopBody FindPhone
            simp [hc, hf]
          rw [hb] at hbad
          simp at hbad

theorem AllPhones_ok_nil (flt : Faults) (db : DB) (phones : List Phone)
    (h : (AllPhones flt db).2 = Except.ok phones) : phones = [] := by
  unfold AllPhones at h
  cases hf : flt db.log.length with
  | some e => simp [hf] at h
  | none =>
    simp only [hf, scanRows_ret] at h
    exact (Except.ok.inj h).symm

theorem seeded_rows :
    seeded.rows = [⟨1, "1234567890"⟩, ⟨2, "123 456 7891"⟩, ⟨3, "(123) 456 7892"⟩,
      ⟨4, "(123) 456-7893"⟩, ⟨5, "123-456-7894"⟩, ⟨6, "123-456-7890"⟩,
      ⟨7, "1234567892"⟩, ⟨8, "(123)456-7892"⟩] := by
  decide

theorem reconcile_seeded :
    reconcile noFaults seeded.rows seeded
      = (⟨[⟨1, "1234567890"⟩, ⟨2, "1234567891"⟩, ⟨4, "1234567893"⟩, ⟨5, "1234567894"⟩,
            ⟨7, "1234567892"⟩],
          [Call.find "1234567891", Call.update 2 "1234567891",
           Call.find "1234567892", Call.delete 3,
           Call.find "1234567893", Call.update 4 "1234567893",
           Call.find "1234567894", Call.update 5 "1234567894",
           Call.find "1234567890", Call.delete 6,
           Call.find "1234567892", Call.delete 8]⟩, none) := by
  decide

/-! ## The claims -/

/-- C2, evaluated on the seeded table: `AllPhones` succeeds and returns the empty
slice although the table holds eight rows, so the loop of `main` visits no record and
`main` leaves the table as seeded. -/
theorem AllPhones_seeded_returns_empty :
    (AllPhones noFaults seeded).2 = Except.ok []
    ∧ seeded.rows.length = 8
    ∧ main noFaults seeded = (⟨seeded.rows, [Call.all]⟩, none) := by
  refine ⟨rfl, rfl, rfl⟩

/-- C3 as stated fails: two records with distinct ids that hold the same digits-only
value both survive an error-free pass. -/
theorem reconcile_keeps_equal_canonical_values :
    (sameCanonical.rows.map Phone.ID).Nodup
    ∧ (reconcile noFaults sameCanonical.rows sameCanonical).2 = none
    ∧ ¬ ((reconcile noFaults sameCanonical.rows sameCanonical).1.rows.map Phone.Number).Nodup := by
  decide

/-- C3, amended: after an error-free pass over a table with distinct ids, two
surviving records share a value only if both are records of the input that the pass
left as they were and whose value was digits-only from the start. -/
theorem reconcile_shared_value_only_untouched (flt : Faults) (db : DB)
    (hid : (db.rows.map Phone.ID).Nodup) (hok : (reconcile flt db.rows db).2 = none) :
    (reconcile flt db.rows db).1.rows.Pairwise (fun a b => a.Number = b.Number →
      (a ∈ db.rows ∧ digitsOnly a.Number = true) ∧ (b ∈ db.rows ∧ digitsOnly b.Number = true)) := by
  rw [reconcile_rows flt db hid hok]
  have h0 : ([] ++ db.rows).Pairwise
      (fun (a b : Phone) => a.Number = b.Number → a ∈ db.rows ∧ b ∈ db.rows) := by
    rw [List.nil_append]
    exact List.pairwise_of_forall_mem_list (fun a ha b hb _ => ⟨ha, hb⟩)
  have h1 := sweep_pairwise db.rows [] db.rows h0
  have hc := sweep_canonical [] db.rows [] (by simp)
  refine h1.imp_of_mem ?_
  intro a b ha hb hab hEq
  obtain ⟨ma, mb⟩ := hab hEq
  exact ⟨⟨ma, (normalize_eq_self_iff _).1 (hc a ha)⟩, ⟨mb, (normalize_eq_self_iff _).1 (hc b hb)⟩⟩

theorem reconcile_shared_value_only_untouched_witness :
    (sameCanonical.rows.map Phone.ID).Nodup
    ∧ (reconcile noFaults sameCanonical.rows sameCanonical).2 = none
    ∧ (reconcile noFaults sameCanonical.rows sameCanonical).1.rows.Pairwise
        (fun a b => a.Number = b.Number →
          (a ∈ sameCanonical.rows ∧ digitsOnly a.Number = true)
          ∧ (b ∈ sameCanonical.rows ∧ digitsOnly b.Number = true)) :=
  ⟨by decide, by decide,
    reconcile_shared_value_only_untouched noFaults sameCanonical (by decide) (by decide)⟩

/-- C4 as stated fails on the seeded table: record 3 is deleted, and the surviving
record that holds its normalized value is record 7, whose id is higher. -/
theorem reconcile_seeded_deletes_lower_id :
    (seeded.rows.map Phone.ID).Pairwise (· < ·)
    ∧ (reconcile noFaults seeded.rows seeded).2 = none
    ∧ (⟨3, "(123) 456 7892"⟩ : Phone) ∈ seeded.rows
    ∧ (3 : Int) ∉ (reconcile noFaults seeded.rows seeded).1.rows.map Phone.ID
    ∧ (∀ q ∈ (reconcile noFaults seeded.rows seeded).1.rows,
        q.Number = normalize "(123) 456 7892" → (3 : Int) < q.ID)
    ∧ (⟨7, "1234567892"⟩ : Phone) ∈ (reconcile noFaults seeded.rows seeded).1.rows := by
  decide

/-- C4, amended: in an error-free pass over a table whose rows are in increasing id
order, a deleted record is never digits-only, and a surviving record with another id
holds its normalized value; that survivor has a lower id, or else it is a record of
the input whose value was digits-only from the start (its id may be higher). -/
theorem reconcile_deleted_has_survivor (flt : Faults) (db : DB)
    (hs : (db.rows.map Phone.ID).Pairwise (· < ·))
    (hok : (reconcile flt db.rows db).2 = none)
    (p : Phone) (hp : p ∈ db.rows)
    (hdel : p.ID ∉ (reconcile flt db.rows db).1.rows.map Phone.ID) :
    digitsOnly p.Number = false
    ∧ ∃ q ∈ (reconcile flt db.rows db).1.rows,
        q.Number = normalize p.Number ∧ q.ID ≠ p.ID
        ∧ (q.ID < p.ID ∨ (q ∈ db.rows ∧ digitsOnly q.Number = true)) := by
  have hid : (db.rows.map Phone.ID).Nodup := hs.imp (fun h => ne_of_lt h)
  rw [reconcile_rows flt db hid hok] at hdel ⊢
  obtain ⟨hne, q, hq, hqn, hw⟩ := sweep_deleted [] db.rows hs p hp hdel
  constructor
  · cases hd : digitsOnly p.Number with
    | false => rfl
    | true => exact absurd ((normalize_eq_self_iff _).2 hd) hne
  · refine ⟨q, hq, hqn, ?_, ?_⟩
    · intro he
      exact hdel (he ▸ List.mem_map_of_mem Phone.ID hq)
    · rcases hw with hw | hw | hw
      · simp at hw
      · exact Or.inr ⟨hw, (normalize_eq_self_iff _).1 (sweep_canonical [] db.rows [] (by simp) q hq)⟩
      · exact Or.inl hw

theorem reconcile_deleted_has_survivor_witness :
    (seeded.rows.map Phone.ID).Pairwise (· < ·)
    ∧ (reconcile noFaults seeded.rows seeded).2 = none
    ∧ (⟨8, "(123)456-7892"⟩ : Phone) ∈ seeded.rows
    ∧ (8 : Int) ∉ (reconcile noFaults seeded.rows seeded).1.rows.map Phone.ID
    ∧ (digitsOnly "(123)456-7892" = false
      ∧ ∃ q ∈ (reconcile noFaults seeded.rows seeded).1.rows,
          q.Number = normalize "(123)456-7892" ∧ q.ID ≠ 8
          ∧ (q.ID < 8 ∨ (q ∈ seeded.rows ∧ digitsOnly q.Number = true))) :=
  ⟨by decide, by decide, by decide, by decide,
    reconcile_deleted_has_survivor noFaults seeded (by decide) (by decide)
      ⟨8, "(123)456-7892"⟩ (by decide) (by decide)⟩

/-- C5: one error-free step of the loop on a record `r` of the table whose value is
not normalized.  If some row holds the value `normalize r.Number`, the rows with the
id of `r` are removed and all other rows stay, in place and unchanged; otherwise the
rows with the id of `r` get the value `normalize r.Number` and keep their id, and all
other rows stay unchanged.  The pass over `["(123) 456-7892", "(123)456-7892"]` ends
with the single record `(1, "1234567892")`, the pass over
`["1234567890", "123-456-7890"]` with the single record `(1, "1234567890")`. -/
theorem loopBody_frame (flt : Faults) (db : DB) (r : Phone) (_hr : r ∈ db.rows)
    (hne : r.Number ≠ normalize r.Number) (hok : (loopBody flt r db).2 = none) :
    ((∃ q ∈ db.rows, q.Number = normalize r.Number) →
        (loopBody flt r db).1.rows = db.rows.filter (fun q => decide (q.ID ≠ r.ID))
        ∧ (∀ q ∈ (loopBody flt r db).1.rows, q.ID ≠ r.ID)
        ∧ (∀ q : Phone, q.ID ≠ r.ID → (q ∈ (loopBody flt r db).1.rows ↔ q ∈ db.rows)))
    ∧ ((¬ ∃ q ∈ db.rows, q.Number = normalize r.Number) →
        (loopBody flt r db).1.rows
            = db.rows.map (fun q => if q.ID = r.ID then ⟨q.ID, normalize r.Number⟩ else q)
        ∧ (loopBody flt r db).1.rows.map Phone.ID = db.rows.map Phone.ID
        ∧ (∀ q : Phone, q.ID ≠ r.ID → (q ∈ (loopBody flt r db).1.rows ↔ q ∈ db.rows)))
    ∧ (reconcile noFaults twoFormats.rows twoFormats).1.rows = [⟨1, "1234567892"⟩]
    ∧ (reconcile noFaults canonicalFirst.rows canonicalFirst).1.rows = [⟨1, "1234567890"⟩] := by
  have hc : ¬ normalize r.Number = r.Number := fun h => hne h.symm
  rw [loopBody_of_ok flt r db hok]
  refine ⟨?_, ?_, by decide, by decide⟩
  · intro hex
    have ha : db.rows.any (fun q => q.Number == normalize r.Number) = true := by
      rw [List.any_eq_true]
      obtain ⟨q, hq, hqn⟩ := hex
      exact ⟨q, hq, by simpa using hqn⟩
    have e : stepRows r db.rows = db.rows.filter (fun q => decide (q.ID ≠ r.ID)) := by
      unfold stepRows
      rw [if_neg hc, if_pos ha]
    simp only [e]
    refine ⟨trivial, ?_, ?_⟩
    · intro q hq
      simpa using (List.mem_filter.1 hq).2
    · intro q hq
      rw [List.mem_filter]
      simp [hq]
  · intro hex
    have ha : ¬ db.rows.any (fun q => q.Number == normalize r.Number) = true := by
      intro ha
      exact hex (any_number _ _ ha)
    have e : stepRows r db.rows
        = db.rows.map (fun q => if q.ID = r.ID then ⟨q.ID, normalize r.Number⟩ else q) := by
      unfold stepRows
      rw [if_neg hc, if_neg ha]
    simp only [e]
    refine ⟨trivial, ?_, ?_⟩
    · rw [List.map_map]
      apply List.map_congr_left
      intro q _
      by_cases hq : q.ID = r.ID <;> simp [hq]
    · intro q hq
      rw [List.mem_map]
      constructor
      · rintro ⟨a, ha1, ha2⟩
        by_cases hq2 : a.ID = r.ID
        · rw [if_pos hq2] at ha2
          exact absurd (by rw [← ha2]; exact hq2) hq
        · rw [if_neg hq2] at ha2
          exact ha2 ▸ ha1
      · intro hm
        exact ⟨q, hm, by rw [if_neg hq]⟩

theorem loopBody_frame_witness :
    (⟨2, "(123)456-7892"⟩ : Phone) ∈ [(⟨1, "1234567892"⟩ : Phone), ⟨2, "(123)456-7892"⟩]
    ∧ "(123)456-7892" ≠ normalize "(123)456-7892"
    ∧ (loopBody noFaults ⟨2, "(123)456-7892"⟩
        ⟨[⟨1, "1234567892"⟩, ⟨2, "(123)456-7892"⟩], []⟩).2 = none
    ∧ (loopBody noFaults ⟨2, "(123)456-7892"⟩
        ⟨[⟨1, "1234567892"⟩, ⟨2, "(123)456-7892"⟩], []⟩).1.rows = [⟨1, "1234567892"⟩]
    ∧ (reconcile noFaults twoFormats.rows twoFormats).1.rows = [⟨1, "1234567892"⟩]
    ∧ (reconcile noFaults canonicalFirst.rows canonicalFirst).1.rows = [⟨1, "1234567890"⟩] :=
  have h := loopBody_frame noFaults ⟨[⟨1, "1234567892"⟩, ⟨2, "(123)456-7892"⟩], []⟩
    ⟨2, "(123)456-7892"⟩ (by decide) (by decide) (by decide)
  ⟨by decide, by decide, by decide,
    (h.1 ⟨⟨1, "1234567892"⟩, by decide, by decide⟩).1.trans (by decide), h.2.2.1, h.2.2.2⟩

/-- C6: on a list of records whose values are all digits-only the pass returns
without error and hands back the store it was given: the same rows and the same call
log, so no `FindPhone`, `UpdatePhone` or `DeletePhone` call is issued (whatever the
fault schedule). -/
theorem reconcile_digits_only_noop (flt : Faults) (phones : List Phone) (db : DB)
    (h : ∀ p ∈ phones, digitsOnly p.Number = true) :
    reconcile flt phones db = (db, none)
    ∧ (reconcile flt phones db).1.rows = db.rows
    ∧ (reconcile flt phones db).1.log = db.log := by
  have e := reconcile_canonical_noop flt phones db
    (fun p hp => (normalize_eq_self_iff _).2 (h p hp))
  rw [e]
  exact ⟨rfl, rfl, rfl⟩

theorem reconcile_digits_only_noop_witness :
    (∀ p ∈ singleCanonical.rows, digitsOnly p.Number = true)
    ∧ (reconcile allFail singleCanonical.rows singleCanonical = (singleCanonical, none)
      ∧ (reconcile allFail singleCanonical.rows singleCanonical).1.rows = singleCanonical.rows
      ∧ (reconcile allFail singleCanonical.rows singleCanonical).1.log = singleCanonical.log) :=
  ⟨by decide, reconcile_digits_only_noop allFail singleCanonical.rows singleCanonical (by decide)⟩

/-- C7: in a pass without store error the calls split record by record: a record
whose value equals its normalized value issues no call, any other record issues its
lookup followed by exactly one write call, an `UpdatePhone` or a `DeletePhone`; the
number of write calls of the pass is the number of records whose value is not
digits-only. -/
theorem reconcile_one_outcome_each (flt : Faults) (phones : List Phone) (db : DB)
    (hok : (reconcile flt phones db).2 = none) :
    (∃ calls : List (List Call),
        (reconcile flt phones db).1.log = db.log ++ calls.flatten
        ∧ List.Forall₂ (fun (p : Phone) (cs : List Call) =>
            (normalize p.Number = p.Number ∧ cs = [])
            ∨ (normalize p.Number ≠ p.Number
                ∧ (cs = [Call.find (normalize p.Number), Call.update p.ID (normalize p.Number)]
                  ∨ cs = [Call.find (normalize p.Number), Call.delete p.ID])))
          phones calls)
    ∧ writes (reconcile flt phones db).1.log
        = writes db.log + phones.countP (fun p => !digitsOnly p.Number) := by
  rw [reconcile_of_ok flt phones db hok]
  refine ⟨⟨passCalls phones db.rows, rfl, passCalls_outcomes phones db.rows⟩, ?_⟩
  show writes (db.log ++ (passCalls phones db.rows).flatten) = _
  rw [writes_append, writes_passCalls]

theorem reconcile_one_outcome_each_witness :
    (reconcile noFaults seeded.rows seeded).2 = none
    ∧ writes (reconcile noFaults seeded.rows seeded).1.log = 6
    ∧ (reconcile noFaults seeded.rows seeded).1.log.length = 12 :=
  have h := reconcile_one_outcome_each noFaults seeded.rows seeded (by decide)
  ⟨by decide, h.2.trans (by decide), by decide⟩

/-- C8: if the records before `p` were processed without error and a store call
fails with `e` while `p` is processed, the pass over the whole list stops there and
returns `e` with the store reached at that call: whatever records follow `p`, no call
is issued for them; the failing call leaves the rows as they were, and the calls
issued for `p` are its lookup alone or its lookup and one write.  When the list is
the table and ids are distinct, `p` and the records after it are still in the table,
in place and unchanged.  If the first store call of the pass fails, that call is the
lookup of `p`, the rows are the initial ones and no write call has been issued. -/
theorem reconcile_halts_on_error (flt : Faults) (pre post : List Phone) (p : Phone)
    (db db1 : DB) (e : StoreError)
    (hpre : reconcile flt pre db = (db1, none))
    (hp : (loopBody flt p db1).2 = some e) :
    reconcile flt (pre ++ p :: post) db = ((loopBody flt p db1).1, some e)
    ∧ (loopBody flt p db1).1.rows = db1.rows
    ∧ ((loopBody flt p db1).1.log = db1.log ++ [Call.find (normalize p.Number)]
      ∨ ∃ w : Call, (w = Call.update p.ID (normalize p.Number) ∨ w = Call.delete p.ID)
          ∧ (loopBody flt p db1).1.log = db1.log ++ [Call.find (normalize p.Number), w])
    ∧ (db.rows = pre ++ p :: post → (db.rows.map Phone.ID).Nodup →
        ∃ done : List Phone, (loopBody flt p db1).1.rows = done ++ p :: post)
    ∧ (∀ e0 : StoreError, flt db.log.length = some e0 →
        e = e0
        ∧ (loopBody flt p db1).1 = ⟨db.rows, db.log ++ [Call.find (normalize p.Number)]⟩) := by
  obtain ⟨herr1, herr2⟩ := loopBody_error flt p db1 e hp
  refine ⟨?_, herr1, ?_, ?_, ?_⟩
  · rw [reconcile_append, hpre]
    simp only
    rw [reconcile_cons]
    cases hb : loopBody flt p db1 with
    | mk db2 r =>
      rw [hb] at hp
      simp only at hp
      rw [hp]
  · rcases herr2 with ⟨_, h⟩ | ⟨_, w, hw, h⟩
    · exact Or.inl h
    · exact Or.inr ⟨w, hw, h⟩
  · intro hrows hnd
    rw [herr1]
    have h1 := reconcile_of_ok flt pre db (by rw [hpre])
    rw [hpre] at h1
    have h2 : db1.rows = passRows pre db.rows := by
      have := congrArg (fun x => x.1.rows) h1
      simpa using this
    rw [h2, hrows]
    have h3 := passRows_eq_sweep [] pre (p :: post) (by simpa [hrows] using hnd)
    rw [List.nil_append] at h3
    exact ⟨_, h3⟩
  · intro e0 hf
    have hdb := reconcile_first_call_fails flt pre db db1 e0 hf hpre
    subst hdb
    rcases herr2 with ⟨h1, h2⟩ | ⟨h1, _⟩
    · rw [hf] at h1
      refine ⟨(Option.some.inj h1).symm, ?_⟩
      cases hb : (loopBody flt p db1).1 with
      | mk rows log =>
        rw [hb] at herr1 h2
        simp only at herr1 h2
        rw [herr1, h2]
    · rw [hf] at h1
      simp at h1

theorem reconcile_halts_on_error_witness :
    reconcile (failAt 1) [] twoFormats = (twoFormats, none)
    ∧ (loopBody (failAt 1) ⟨1, "(123) 456-7892"⟩ twoFormats).2 = some ⟨"connection lost"⟩
    ∧ reconcile (failAt 1) twoFormats.rows twoFormats
        = (⟨twoFormats.rows, [Call.find "1234567892", Call.update 1 "1234567892"]⟩,
            some ⟨"connection lost"⟩) :=
  have h := reconcile_halts_on_error (failAt 1) [] [⟨2, "(123)456-7892"⟩]
    ⟨1, "(123) 456-7892"⟩ twoFormats twoFormats ⟨"connection lost"⟩ (by decide) (by decide)
  ⟨by decide, by decide, h.1.trans (by decide)⟩

/-- C9: after an error-free pass over a table with distinct ids every surviving
value is digits-only and equal to its own normalization, the surviving ids are a
sublist of the ids of the input, and a second pass over the resulting table returns
it as it is (same rows, no call), whatever the fault schedule. -/
theorem reconcile_result_canonical (flt : Faults) (db : DB)
    (hid : (db.rows.map Phone.ID).Nodup) (hok : (reconcile flt db.rows db).2 = none) :
    (∀ r ∈ (reconcile flt db.rows db).1.rows,
        digitsOnly r.Number = true ∧ normalize r.Number = r.Number)
    ∧ ((reconcile flt db.rows db).1.rows.map Phone.ID).Sublist (db.rows.map Phone.ID)
    ∧ (∀ flt2 : Faults,
        reconcile flt2 (reconcile flt db.rows db).1.rows (reconcile flt db.rows db).1
          = ((reconcile flt db.rows db).1, none)) := by
  have hrows := reconcile_rows flt db hid hok
  have hcan : ∀ r ∈ (reconcile flt db.rows db).1.rows, normalize r.Number = r.Number := by
    rw [hrows]
    exact sweep_canonical [] db.rows [] (by simp)
  refine ⟨fun r hr => ⟨(normalize_eq_self_iff _).1 (hcan r hr), hcan r hr⟩, ?_, ?_⟩
  · rw [hrows]
    simpa using sweep_ids_sublist [] db.rows []
  · intro flt2
    exact reconcile_canonical_noop flt2 _ _ hcan

theorem reconcile_result_canonical_witness :
    (twoFormats.rows.map Phone.ID).Nodup
    ∧ (reconcile noFaults twoFormats.rows twoFormats).2 = none
    ∧ ((∀ r ∈ (reconcile noFaults twoFormats.rows twoFormats).1.rows,
          digitsOnly r.Number = true ∧ normalize r.Number = r.Number)
      ∧ ((reconcile noFaults twoFormats.rows twoFormats).1.rows.map Phone.ID).Sublist
          (twoFormats.rows.map Phone.ID)
      ∧ (∀ flt2 : Faults,
          reconcile flt2 (reconcile noFaults twoFormats.rows twoFormats).1.rows
              (reconcile noFaults twoFormats.rows twoFormats).1
            = ((reconcile noFaults twoFormats.rows twoFormats).1, none))) :=
  ⟨by decide, by decide,
    reconcile_result_canonical noFaults twoFormats (by decide) (by decide)⟩

/-- C10: for a table with distinct ids in which no two digits-only records hold the
same value, after an error-free pass no two surviving records hold the same value,
and the surviving values are exactly the normalized values of the input records. -/
theorem reconcile_values_distinct (flt : Faults) (db : DB)
    (hid : (db.rows.map Phone.ID).Nodup)
    (hdist : ((db.rows.filter (fun r => digitsOnly r.Number)).map Phone.Number).Nodup)
    (hok : (reconcile flt db.rows db).2 = none) :
    ((reconcile flt db.rows db).1.rows.map Phone.Number).Nodup
    ∧ (∀ s : String, s ∈ (reconcile flt db.rows db).1.rows.map Phone.Number
        ↔ s ∈ db.rows.map (fun r => normalize r.Number)) := by
  rw [reconcile_rows flt db hid hok]
  refine ⟨sweep_values_nodup [] db.rows (by simpa using hdist), ?_⟩
  intro s
  rw [sweep_values [] db.rows s]
  simp

theorem reconcile_values_distinct_witness :
    (seeded.rows.map Phone.ID).Nodup
    ∧ ((seeded.rows.filter (fun r => digitsOnly r.Number)).map Phone.Number).Nodup
    ∧ (reconcile noFaults seeded.rows seeded).2 = none
    ∧ (((reconcile noFaults seeded.rows seeded).1.rows.map Phone.Number).Nodup
      ∧ (∀ s : String, s ∈ (reconcile noFaults seeded.rows seeded).1.rows.map Phone.Number
          ↔ s ∈ seeded.rows.map (fun r => normalize r.Number))) :=
  ⟨by decide, by decide, by decide,
    reconcile_values_distinct noFaults seeded (by decide) (by decide) (by decide)⟩

end Gophercises
